import Mathlib

/-!
Shallow embedding of the Jacobian assembly engine of `Ewoms::FvBaseAssembler`
(src/ewoms/disc/common/fvbaseassembler.hh) and of the solution update of
`Ewoms::FvBaseNewtonMethod` (second part of
src/dumux/boxmodels/pdelab/boundarytypespdelab.hh).

Modelling conventions, fixed once for the whole development:

* Scalars are exact rationals (`ℚ`).  The Dune `numEq × numEq` matrix blocks
  and `numEq` vector blocks enter every operation of the assembler
  componentwise (block `+`, `-`, `*= scalar`, `= 0`), so we model one
  component: `MatrixBlock` and `VectorBlock` collapse to a single `ℚ`.  Every
  identity proved about an entry holds verbatim for each of the `numEq^2`
  (resp. `numEq`) components.

* There is a single grid partition (one MPI rank).  Consequently every
  element is an interior element or not according to its `interior` flag,
  `gridView.communicate` with the min/max color handles is the identity, and
  the collective `comm().sum/min/max` reductions are the identity as well.

* The BCRS Jacobian matrix is modelled densely as a total function
  `Nat → Nat → ℚ`; entries outside the sparsity pattern are never written by
  the assembler (the pattern is built from the same stencils the accumulation
  uses), so zeroing a whole row coincides with zeroing the row's pattern
  entries on every reachable state.

* `std::vector` fields become `List`s; the loops of the C++ become folds over
  `List.range`, reading entries with `List.getD` and writing with `List.set`.
-/

namespace OpmAssembler

/-- The colors of elements and degrees of freedom required for partial
relinearization (`FvBaseAssembler::EntityColor`, ordinals
Red = 0 < Yellow = 1 < Orange = 2 < Green = 3). -/
inductive EntityColor
  | Red
  | Yellow
  | Orange
  | Green
deriving DecidableEq, Repr

/-- One mesh element as the assembler sees it: its stencil (the global
indices of all degrees of freedom coupled to the element, in stencil order),
the number of primary degrees of freedom (a prefix of the stencil), and
whether the element belongs to the interior partition
(`partitionType() == Dune::InteriorEntity`). -/
structure GridElem where
  stencilDofs : List Nat
  numPrimaryDof : Nat
  interior : Bool
deriving DecidableEq, Repr

/-- The grid as seen through the mesh abstraction: the number of degrees of
freedom and the list of elements (the element mapper is the list position). -/
structure Grid where
  numDof : Nat
  elems : List GridElem
deriving DecidableEq, Repr

/-- Fallback element used by `List.getD` on the element list; every access is
in range under the well-formedness hypotheses. -/
def defaultElem : GridElem := ⟨[], 0, false⟩

/-- The two run-time parameters registered by the assembler
(`EnableLinearizationRecycling` and `EnablePartialRelinearization`). -/
structure Params where
  enableLinearizationRecycling : Bool
  enablePartialRelinearization : Bool
deriving DecidableEq, Repr

/-- The external per-element evaluator (`model().localJacobian()` and
`model().localResidual()`): residual, storage part of the residual, Jacobian
block and storage part of the Jacobian for each element and each local
(primary) degree of freedom.  `localResidual().eval` and
`localJacobian().assemble` evaluate the same physics, so one pair of
residual/storage functions serves both the green and the full path.  `ok e`
records whether evaluating element `e` succeeds (no `Opm::NumericalProblem`
is thrown). -/
structure LocalEvaluator where
  residual : Nat → Nat → ℚ
  residualStorage : Nat → Nat → ℚ
  jacobian : Nat → Nat → Nat → ℚ
  jacobianStorage : Nat → Nat → ℚ
  ok : Nat → Bool

/-- The mutable state of `FvBaseAssembler`. -/
structure AsmState where
  matrix : Nat → Nat → ℚ
  residual : List ℚ
  reuseLinearization : Bool
  storageJacobian : List ℚ
  storageTerm : List ℚ
  oldDt : ℚ
  dofColor : List EntityColor
  dofError : List ℚ
  elementColor : List EntityColor
  greenElems : Nat
  nextRelinearizationAccuracy : ℚ
  relinearizationAccuracy : ℚ

/-- Write a single matrix entry. -/
def matSet (m : Nat → Nat → ℚ) (i j : Nat) (v : ℚ) : Nat → Nat → ℚ :=
  fun i' j' => if i' = i ∧ j' = j then v else m i' j'

/-- Accumulate into a single matrix entry (`(*matrix_)[i][j] += v`). -/
def matAdd (m : Nat → Nat → ℚ) (i j : Nat) (v : ℚ) : Nat → Nat → ℚ :=
  matSet m i j (m i j + v)

/-- Zero out all entries of row `i` (`resetSystem_`'s column loop). -/
def matZeroRow (m : Nat → Nat → ℚ) (i : Nat) : Nat → Nat → ℚ :=
  fun i' j' => if i' = i then 0 else m i' j'

/-- Accumulate into one entry of a block vector (`residual_[i] += v`). -/
def addAt (l : List ℚ) (i : Nat) (v : ℚ) : List ℚ :=
  l.set i (l.getD i 0 + v)

/-- Color query for a degree of freedom (`FvBaseAssembler::dofColor`); the
overload taking an element context first maps the local index to the global
one and then coincides with this global-index form. -/
def dofColorQ (p : Params) (st : AsmState) (globalDofIdx : Nat) : EntityColor :=
  if !p.enablePartialRelinearization then .Red
  else st.dofColor.getD globalDofIdx .Green

/-- Color query for an element (`FvBaseAssembler::elementColor`); the
overload taking an `Element` maps it through the element mapper first and
then coincides with this global-index form. -/
def elementColorQ (p : Params) (st : AsmState) (globalElementIdx : Nat) : EntityColor :=
  if !p.enablePartialRelinearization then .Red
  else st.elementColor.getD globalElementIdx .Green

/-- `FvBaseAssembler::setLinearizationReusable`. -/
def setLinearizationReusable (p : Params) (st : AsmState) (yesno : Bool) : AsmState :=
  if p.enableLinearizationRecycling then { st with reuseLinearization := yesno } else st

/-- `FvBaseAssembler::relinearizeAll`. -/
def relinearizeAll (p : Params) (st : AsmState) : AsmState :=
  let st1 := { st with reuseLinearization := false, nextRelinearizationAccuracy := 0 }
  if p.enablePartialRelinearization then
    { st1 with
      dofError := List.replicate st1.dofError.length 0
      dofColor := List.replicate st1.dofColor.length .Red
      elementColor := List.replicate st1.elementColor.length .Red }
  else st1

/-- `FvBaseAssembler::markDofRed`. -/
def markDofRed (p : Params) (st : AsmState) (globalDofIdx : Nat) : AsmState :=
  if p.enablePartialRelinearization then
    { st with dofColor := st.dofColor.set globalDofIdx .Red }
  else st

/-- Threshold pass of `computeColors`: a degree of freedom whose error
exceeds the tolerance becomes red, all others keep their current color
(the C++ loop performs this together with `thresholdAccuracy` in one pass
over `0 ≤ i < dofColor_.size()`). -/
def thresholdColors (tolerance : ℚ) (colors : List EntityColor) (errors : List ℚ) :
    List EntityColor :=
  List.zipWith (fun c e => if e > tolerance then .Red else c) colors errors

/-- Running maximum of the errors not above the tolerance, accumulated by the
threshold pass into `nextRelinearizationAccuracy_` (initialized to 0). -/
def thresholdAccuracy (tolerance : ℚ) (errors : List ℚ) : ℚ :=
  errors.foldl (fun acc e => if e > tolerance then acc else max acc e) 0

/-- Element coloring pass of `computeColors`: an element containing a red
degree of freedom becomes red, every other element becomes green for the
mean time. -/
def elementColorsOf (g : Grid) (colors : List EntityColor) : List EntityColor :=
  g.elems.map fun el =>
    if el.stencilDofs.any (fun gi => colors.getD gi .Green = .Red) then
      EntityColor.Red
    else
      EntityColor.Green

/-- Orange-marking pass of `computeColors`: every non-red degree of freedom
of a red element is marked orange. -/
def markOrangeDofs (g : Grid) (elemColors : List EntityColor)
    (colors : List EntityColor) : List EntityColor :=
  (List.range g.elems.length).foldl
    (fun cs eIdx =>
      if elemColors.getD eIdx .Green ≠ .Red then cs
      else
        (g.elems.getD eIdx defaultElem).stencilDofs.foldl
          (fun cs2 gi =>
            if cs2.getD gi .Green ≠ .Red then cs2.set gi .Orange else cs2)
          cs)
    colors

/-- Yellow-element pass of `computeColors`: a non-red element containing an
orange degree of freedom becomes yellow. -/
def markYellowElements (g : Grid) (colors : List EntityColor)
    (elemColors : List EntityColor) : List EntityColor :=
  List.zipWith
    (fun el c =>
      if c = EntityColor.Red then c
      else if el.stencilDofs.any (fun gi => colors.getD gi .Green = .Orange) then
        EntityColor.Yellow
      else c)
    g.elems elemColors

/-- Demotion pass of `computeColors`: an orange degree of freedom of a green
element is demoted to yellow. -/
def demoteOrangeDofs (g : Grid) (elemColors : List EntityColor)
    (colors : List EntityColor) : List EntityColor :=
  (List.range g.elems.length).foldl
    (fun cs eIdx =>
      if elemColors.getD eIdx .Green ≠ .Green then cs
      else
        (g.elems.getD eIdx defaultElem).stencilDofs.foldl
          (fun cs2 gi =>
            if cs2.getD gi .Green = .Orange then cs2.set gi .Yellow else cs2)
          cs)
    colors

/-- Promotion pass of `computeColors`: every degree of freedom which is
neither green nor yellow is made red. -/
def promoteColors (colors : List EntityColor) : List EntityColor :=
  colors.map fun c => if c = EntityColor.Green ∨ c = EntityColor.Yellow then c else .Red

/-- Error reset of the promotion pass: a promoted (red) degree of freedom has
its error reset to zero. -/
def promoteErrors (colors : List EntityColor) (errors : List ℚ) : List ℚ :=
  List.zipWith (fun c e => if c = EntityColor.Green ∨ c = EntityColor.Yellow then e else 0)
    colors errors

/-- `FvBaseAssembler::computeColors`.  On a single partition the two
`gridView().communicate` border exchanges (ordinal min-reduce and
max-reduce of the color array) are identities, so they do not appear
between the passes. -/
def computeColors (p : Params) (g : Grid) (tolerance : ℚ) (st : AsmState) : AsmState :=
  if !p.enablePartialRelinearization then st
  else
    let c1 := thresholdColors tolerance st.dofColor st.dofError
    let acc := thresholdAccuracy tolerance st.dofError
    let ec2 := elementColorsOf g c1
    let c3 := markOrangeDofs g ec2 c1
    let ec4 := markYellowElements g c3 ec2
    let c5 := demoteOrangeDofs g ec4 c3
    { st with
      dofColor := promoteColors c5
      dofError := promoteErrors c5 st.dofError
      elementColor := ec4
      nextRelinearizationAccuracy := acc }

/-- Row-reset loop body of `FvBaseAssembler::resetSystem_` under partial
relinearization: a green row is skipped, every other row has its storage
cache entries (with recycling) and its whole matrix row zeroed. -/
def resetRowStep (p : Params) (s : AsmState) (rowIdx : Nat) : AsmState :=
  if s.dofColor.getD rowIdx .Green = .Green then s
  else
    let s1 :=
      if p.enableLinearizationRecycling then
        { s with
          storageJacobian := s.storageJacobian.set rowIdx 0
          storageTerm := s.storageTerm.set rowIdx 0 }
      else s
    { s1 with matrix := matZeroRow s1.matrix rowIdx }

/-- `FvBaseAssembler::resetSystem_`: nothing happens if the current
linearization can be reused; otherwise the residual is zeroed and either the
whole matrix (and, with recycling, the whole storage cache) is zeroed, or —
with partial relinearization — only the rows of non-green degrees of freedom
(together with their storage cache entries). -/
def resetSystem_ (p : Params) (g : Grid) (st : AsmState) : AsmState :=
  if st.reuseLinearization then st
  else
    let st1 := { st with residual := List.replicate st.residual.length 0 }
    if !p.enablePartialRelinearization then
      let st2 := { st1 with matrix := fun _ _ => 0 }
      if p.enableLinearizationRecycling then
        { st2 with
          storageJacobian := List.replicate st2.storageJacobian.length 0
          storageTerm := List.replicate st2.storageTerm.length 0 }
      else st2
    else
      (List.range g.numDof).foldl (resetRowStep p) st1

/-- Loop body of the recycling branch of `FvBaseAssembler::assemble_` for one
degree of freedom `i`: subtract the cached storage Jacobian from the diagonal
block, rescale the cache by `oldDt / curDt`, add the rescaled cache back, and
overwrite the residual entry with the negated cached storage term. -/
def reuseStep (curDt : ℚ) (s : AsmState) (i : Nat) : AsmState :=
  let Jii := s.matrix i i
  let Js := s.storageJacobian.getD i 0
  let Js' := Js * (s.oldDt / curDt)
  { s with
    matrix := matSet s.matrix i i (Jii - Js + Js')
    storageJacobian := s.storageJacobian.set i Js'
    residual := s.residual.set i (-(s.storageTerm.getD i 0)) }

/-- The recycling branch of `FvBaseAssembler::assemble_`: run `reuseStep`
over every degree of freedom, then clear the reuse flag and remember the
current time step size. -/
def assembleReuse (curDt : ℚ) (st : AsmState) : AsmState :=
  let st' := (List.range st.storageJacobian.length).foldl (reuseStep curDt) st
  { st' with reuseLinearization := false, oldDt := curDt }

/-- `FvBaseAssembler::assembleGreenElement_`: a green element only gets the
residual (and, with recycling, the storage-term cache) updated; the Jacobian
is left alone. -/
def assembleGreenElement_ (p : Params) (g : Grid) (ev : LocalEvaluator)
    (eIdx : Nat) (st : AsmState) : AsmState :=
  let el := g.elems.getD eIdx defaultElem
  (List.range el.numPrimaryDof).foldl
    (fun s dofIdx =>
      let globI := el.stencilDofs.getD dofIdx 0
      let s1 := { s with residual := addAt s.residual globI (ev.residual eIdx dofIdx) }
      if p.enableLinearizationRecycling then
        { s1 with
          storageTerm := addAt s1.storageTerm globI (ev.residualStorage eIdx dofIdx) }
      else s1)
    st

/-- Body of the primary-dof loop of `FvBaseAssembler::assembleElement_`:
accumulate the residual (and with recycling the storage term) for the row,
and — only when the row's degree of freedom is not green — accumulate the
storage Jacobian cache and the Jacobian blocks of the whole stencil. -/
def accumulatePrimaryDof (p : Params) (g : Grid) (ev : LocalEvaluator)
    (eIdx : Nat) (s : AsmState) (primaryDofIdx : Nat) : AsmState :=
  let el := g.elems.getD eIdx defaultElem
  let globI := el.stencilDofs.getD primaryDofIdx 0
  let s1 := { s with residual := addAt s.residual globI (ev.residual eIdx primaryDofIdx) }
  let s2 :=
    if p.enableLinearizationRecycling then
      { s1 with
        storageTerm := addAt s1.storageTerm globI (ev.residualStorage eIdx primaryDofIdx) }
    else s1
  if dofColorQ p s2 globI ≠ .Green then
    let s3 :=
      if p.enableLinearizationRecycling then
        { s2 with
          storageJacobian :=
            addAt s2.storageJacobian globI (ev.jacobianStorage eIdx primaryDofIdx) }
      else s2
    { s3 with
      matrix :=
        (List.range el.stencilDofs.length).foldl
          (fun m dofIdx =>
            matAdd m globI (el.stencilDofs.getD dofIdx 0)
              (ev.jacobian eIdx primaryDofIdx dofIdx))
          s3.matrix }
  else s2

/-- `FvBaseAssembler::assembleElement_`: with partial relinearization, a
green element is counted and handled by the cheap green path; every other
element gets the full local Jacobian accumulated over its primary degrees of
freedom. -/
def assembleElement_ (p : Params) (g : Grid) (ev : LocalEvaluator)
    (eIdx : Nat) (st : AsmState) : AsmState :=
  if p.enablePartialRelinearization
      && (st.elementColor.getD eIdx .Green == .Green) then
    assembleGreenElement_ p g ev eIdx { st with greenElems := st.greenElems + 1 }
  else
    (List.range (g.elems.getD eIdx defaultElem).numPrimaryDof).foldl
      (accumulatePrimaryDof p g ev eIdx) st

/-- Element-loop body of `FvBaseAssembler::assemble_`: elements outside the
interior partition are skipped (`elem.partitionType() != InteriorEntity`). -/
def traverseElem (p : Params) (g : Grid) (ev : LocalEvaluator)
    (s : AsmState) (eIdx : Nat) : AsmState :=
  if (g.elems.getD eIdx defaultElem).interior then assembleElement_ p g ev eIdx s
  else s

/-- `FvBaseAssembler::assemble_`: reset the system, then either recycle the
current linearization or relinearize all interior elements. -/
def assemble_ (p : Params) (g : Grid) (ev : LocalEvaluator) (curDt : ℚ)
    (st : AsmState) : AsmState :=
  let st1 := resetSystem_ p g st
  if st1.reuseLinearization then
    assembleReuse curDt st1
  else
    let st2 := { st1 with oldDt := curDt, greenElems := 0 }
    (List.range g.elems.length).foldl (traverseElem p g ev) st2

/-- Whether the `try`-block of `FvBaseAssembler::assemble` succeeds: the
recycled path evaluates no element and always succeeds; the full path throws
`Opm::NumericalProblem` as soon as the evaluation of some traversed
(interior) element fails.  On a single partition the `comm().min` reduction
of the success flag is the identity. -/
def assembleSucceeds (g : Grid) (ev : LocalEvaluator) (st : AsmState) : Bool :=
  st.reuseLinearization
    || (List.range g.elems.length).all
        (fun eIdx => !(g.elems.getD eIdx defaultElem).interior || ev.ok eIdx)

/-- `FvBaseAssembler::assemble`: on failure the caught exception is rethrown
as a global `NumericalProblem` (modelled by `none`), leaving no usable state;
on success, after a non-recycled assembly with partial relinearization the
relinearization accuracy is published (`comm().sum`/`comm().max` are
identities on a single partition), and every degree of freedom color is
reset to green as the new baseline. -/
def assemble (p : Params) (g : Grid) (ev : LocalEvaluator) (curDt : ℚ)
    (st : AsmState) : Option AsmState :=
  let linearizationReused := st.reuseLinearization
  if !assembleSucceeds g ev st then none
  else
    let st1 := assemble_ p g ev curDt st
    let st2 :=
      if !linearizationReused && p.enablePartialRelinearization then
        { st1 with relinearizationAccuracy := st1.nextRelinearizationAccuracy }
      else st1
    some { st2 with dofColor := List.replicate st2.dofColor.length .Green }

/-! ### Coloring-free reference assembler

For the refinement claim about disabled partial relinearization, a second
assembler is written from the specification's words ("an implementation with
no coloring logic at all"): it resets the residual, the whole matrix and the
whole recycling cache, traverses all interior elements, and accumulates the
full local residual and Jacobian of every element; colors are never consulted
and never changed.  The recycling path is retained unchanged.
-/

/-- Reset step of the coloring-free assembler, following the specification:
reset the residual and the whole matrix (and recycling cache) with no
per-color case split. -/
def resetSystemNoColoring (p : Params) (st : AsmState) : AsmState :=
  if st.reuseLinearization then st
  else
    let st1 := { st with
      residual := List.replicate st.residual.length 0
      matrix := fun _ _ => 0 }
    if p.enableLinearizationRecycling then
      { st1 with
        storageJacobian := List.replicate st1.storageJacobian.length 0
        storageTerm := List.replicate st1.storageTerm.length 0 }
    else st1

/-- Primary-dof accumulation of the coloring-free assembler: identical to
`accumulatePrimaryDof` with the green-row test removed. -/
def accumulatePrimaryDofNoColoring (p : Params) (g : Grid) (ev : LocalEvaluator)
    (eIdx : Nat) (s : AsmState) (primaryDofIdx : Nat) : AsmState :=
  let el := g.elems.getD eIdx defaultElem
  let globI := el.stencilDofs.getD primaryDofIdx 0
  let s1 := { s with residual := addAt s.residual globI (ev.residual eIdx primaryDofIdx) }
  let s2 :=
    if p.enableLinearizationRecycling then
      { s1 with
        storageTerm := addAt s1.storageTerm globI (ev.residualStorage eIdx primaryDofIdx) }
    else s1
  let s3 :=
    if p.enableLinearizationRecycling then
      { s2 with
        storageJacobian :=
          addAt s2.storageJacobian globI (ev.jacobianStorage eIdx primaryDofIdx) }
    else s2
  { s3 with
    matrix :=
      (List.range el.stencilDofs.length).foldl
        (fun m dofIdx =>
          matAdd m globI (el.stencilDofs.getD dofIdx 0)
            (ev.jacobian eIdx primaryDofIdx dofIdx))
        s3.matrix }

/-- Element-loop body of the coloring-free assembler: interior elements get
the full accumulation, others are skipped. -/
def traverseElemNoColoring (p : Params) (g : Grid) (ev : LocalEvaluator)
    (s : AsmState) (eIdx : Nat) : AsmState :=
  if (g.elems.getD eIdx defaultElem).interior then
    (List.range (g.elems.getD eIdx defaultElem).numPrimaryDof).foldl
      (accumulatePrimaryDofNoColoring p g ev eIdx) s
  else s

/-- The coloring-free assembler: reset, then recycle or traverse all interior
elements with the full accumulation for every element. -/
def assembleNoColoring (p : Params) (g : Grid) (ev : LocalEvaluator) (curDt : ℚ)
    (st : AsmState) : Option AsmState :=
  if !assembleSucceeds g ev st then none
  else
    let st1 := resetSystemNoColoring p st
    if st1.reuseLinearization then
      some (assembleReuse curDt st1)
    else
      let st2 := { st1 with oldDt := curDt }
      some ((List.range g.elems.length).foldl (traverseElemNoColoring p g ev) st2)

/-! ### Newton solution update

`FvBaseNewtonMethod::update_` of the Newton controller.  A scalar of the
computed update direction carries an explicit finiteness flag: in exact
arithmetic squares and sums of finite values stay finite and a non-finite
operand poisons every square and sum it enters, which is how
`deltaU.two_norm2()` behaves on IEEE `inf`/`nan` inputs.  The
partial-reassembly branch of `update_` only feeds the update discrepancy and
the derived tolerance into the assembler's coloring engine — it reads but
never writes `uCurrentIter`, `uLastIter` or `deltaU` — so the solution
update itself is modelled as a function of the solution vectors alone.
-/

/-- One scalar entry of the linear solver's update direction, with its
IEEE finiteness status. -/
structure FScalar where
  val : ℚ
  isFinite : Bool
deriving DecidableEq, Repr

/-- The finiteness status of `deltaU.two_norm2()`: the sum of the squares of
all entries is finite exactly when every entry is finite. -/
def twoNorm2IsFinite (deltaU : List FScalar) : Bool :=
  deltaU.all (fun d => d.isFinite)

/-- `FvBaseNewtonMethod::update_`, restricted to its effect on the solution:
throw `Opm::NumericalProblem` (`none`) if the update direction is not
finite — before anything is written — and otherwise produce
`uCurrentIter[i] = uLastIter[i] - deltaU[i]` for every index. -/
def update_ (uLastIter : List ℚ) (deltaU : List FScalar) : Option (List ℚ) :=
  if !twoNorm2IsFinite deltaU then none
  else some (List.zipWith (fun u d => u - d.val) uLastIter deltaU)

/-! ### Derived quantities used by the claims -/

/-- Storage-term contribution of element `eIdx` to the cache row of degree of
freedom `i`: the sum of the freshly evaluated storage terms of those primary
degrees of freedom of the element whose global index is `i`. -/
def elemStorageContrib (g : Grid) (ev : LocalEvaluator) (eIdx i : Nat) : ℚ :=
  let el := g.elems.getD eIdx defaultElem
  ((List.range el.numPrimaryDof).map
    (fun dofIdx =>
      if el.stencilDofs.getD dofIdx 0 = i then ev.residualStorage eIdx dofIdx else 0)).sum

/-- Total freshly evaluated storage term accumulated for degree of freedom
`i` by one full traversal of the interior elements. -/
def totalStorageContrib (g : Grid) (ev : LocalEvaluator) (i : Nat) : ℚ :=
  ((List.range g.elems.length).map
    (fun eIdx =>
      if (g.elems.getD eIdx defaultElem).interior then elemStorageContrib g ev eIdx i
      else 0)).sum

/-! ### Concrete configurations, grids and states used as test inputs -/

/-- Partial relinearization only. -/
def pPR : Params := ⟨false, true⟩

/-- Linearization recycling only. -/
def pLR : Params := ⟨true, false⟩

/-- Both features enabled. -/
def pBoth : Params := ⟨true, true⟩

/-- An evaluator whose local residuals and Jacobians are all zero and that
always succeeds. -/
def evZero : LocalEvaluator :=
  ⟨fun _ _ => 0, fun _ _ => 0, fun _ _ _ => 0, fun _ _ => 0, fun _ => true⟩

/-- A freshly initialized three-dof state (all colors green, everything
else zeroed, previous time step size one). -/
def exBase : AsmState :=
  { matrix := fun _ _ => 0
    residual := [0, 0, 0]
    reuseLinearization := false
    storageJacobian := [0, 0, 0]
    storageTerm := [0, 0, 0]
    oldDt := 1
    dofColor := [.Green, .Green, .Green]
    dofError := [0, 0, 0]
    elementColor := [.Green, .Green, .Green]
    greenElems := 0
    nextRelinearizationAccuracy := 0
    relinearizationAccuracy := 0 }

/-- A one-dimensional chain of three degrees of freedom: element 0 couples
dofs 0 and 1, element 1 couples dofs 1 and 2, element 2 touches dof 2
alone. -/
def gC3 : Grid := ⟨3, [⟨[0, 1], 1, true⟩, ⟨[1, 2], 1, true⟩, ⟨[2], 1, true⟩]⟩

/-- State whose dof 0 has a large recorded error; all colors green. -/
def stC3 : AsmState := { exBase with dofError := [7, 0, 0] }

/-- Two elements over three degrees of freedom. -/
def gC4 : Grid := ⟨3, [⟨[0, 1], 1, true⟩, ⟨[1, 2], 1, true⟩]⟩

/-- State whose dof 0 error is far above a tolerance of 10 while dofs 1
and 2 are below it with distinct errors. -/
def stC4 : AsmState :=
  { exBase with dofError := [100, 3, 1], elementColor := [.Green, .Green] }

/-- Single-element grid over one degree of freedom. -/
def gC6 : Grid := ⟨1, [⟨[0], 1, true⟩]⟩

/-- Evaluator with nonzero local residual and Jacobian. -/
def evC6 : LocalEvaluator :=
  ⟨fun _ _ => 1, fun _ _ => 0, fun _ _ _ => 3, fun _ _ => 0, fun _ => true⟩

/-- One-dof state with a nonzero diagonal Jacobian entry, all colors green
(the baseline left behind by a preceding assembly and coloring pass). -/
def stC6 : AsmState :=
  { matrix := fun i j => if i = 0 ∧ j = 0 then 7 else 0
    residual := [0]
    reuseLinearization := false
    storageJacobian := [0]
    storageTerm := [0]
    oldDt := 1
    dofColor := [.Green]
    dofError := [0]
    elementColor := [.Green]
    greenElems := 0
    nextRelinearizationAccuracy := 0
    relinearizationAccuracy := 0 }

/-- One-element grid over two degrees of freedom (both primary). -/
def gC1 : Grid := ⟨2, [⟨[0, 1], 2, true⟩]⟩

/-- Two-dof state primed for the recycled path: the reuse flag is set, the
storage cache is populated, and the previous time step size was 3. -/
def stC1 : AsmState :=
  { matrix := fun i j => if i = j then 10 else 0
    residual := [4, 4]
    reuseLinearization := true
    storageJacobian := [6, 8]
    storageTerm := [2, 5]
    oldDt := 3
    dofColor := []
    dofError := []
    elementColor := []
    greenElems := 0
    nextRelinearizationAccuracy := 0
    relinearizationAccuracy := 0 }

/-- Single-element grid over one degree of freedom for the recycled-path
counterexample. -/
def gC8 : Grid := ⟨1, [⟨[0], 1, true⟩]⟩

/-- Evaluator with local Jacobian 3 and residual 1. -/
def evC8 : LocalEvaluator :=
  ⟨fun _ _ => 1, fun _ _ => 0, fun _ _ _ => 3, fun _ _ => 0, fun _ => true⟩

/-- Evaluator whose element evaluation throws `Opm::NumericalProblem`; used
to observe whether an assembly traverses the elements at all. -/
def evFail : LocalEvaluator :=
  ⟨fun _ _ => 1, fun _ _ => 0, fun _ _ _ => 3, fun _ _ => 0, fun _ => false⟩

/-- One-dof state with the reuse flag set, a populated recycling cache and a
nonzero current matrix and residual. -/
def stC8 : AsmState :=
  { matrix := fun i j => if i = 0 ∧ j = 0 then 10 else 0
    residual := [4]
    reuseLinearization := true
    storageJacobian := [6]
    storageTerm := [2]
    oldDt := 3
    dofColor := []
    dofError := []
    elementColor := []
    greenElems := 0
    nextRelinearizationAccuracy := 0
    relinearizationAccuracy := 0 }

/-- One-element grid over two degrees of freedom (both primary) for the
storage-cache accumulation scenario. -/
def gC10 : Grid := ⟨2, [⟨[0, 1], 2, true⟩]⟩

/-- Evaluator whose storage term distinguishes the two local degrees of
freedom. -/
def evC10 : LocalEvaluator :=
  ⟨fun _ _ => 1, fun _ d => 10 + d, fun _ _ _ => 2, fun _ _ => 4, fun _ => true⟩

/-- State after a coloring pass which left dof 0 green and dof 1 red, with a
stale storage cache from the previous assembly. -/
def stC10 : AsmState :=
  { matrix := fun _ _ => 0
    residual := [0, 0]
    reuseLinearization := false
    storageJacobian := [100, 100]
    storageTerm := [50, 60]
    oldDt := 1
    dofColor := [.Green, .Red]
    dofError := [0, 0]
    elementColor := [.Red, .Red]
    greenElems := 0
    nextRelinearizationAccuracy := 0
    relinearizationAccuracy := 0 }

/-- The state fields that one step of the element traversal (or of the
system reset) never writes, together with the lengths of the block vectors
it only updates entrywise.  `Frame s s'` says `s'` agrees with `s` on all of
them. -/
structure Frame (s s' : AsmState) : Prop where
  reuse : s'.reuseLinearization = s.reuseLinearization
  oldDt : s'.oldDt = s.oldDt
  dofColor : s'.dofColor = s.dofColor
  dofError : s'.dofError = s.dofError
  elementColor : s'.elementColor = s.elementColor
  nextAcc : s'.nextRelinearizationAccuracy = s.nextRelinearizationAccuracy
  relinAcc : s'.relinearizationAccuracy = s.relinearizationAccuracy
  lenResidual : s'.residual.length = s.residual.length
  lenStorageTerm : s'.storageTerm.length = s.storageTerm.length
  lenStorageJacobian : s'.storageJacobian.length = s.storageJacobian.length

/-! ### General list and fold lemmas -/

theorem getD_set {α : Type _} (l : List α) (i j : Nat) (v d : α) :
    (l.set i v).getD j d = if i = j ∧ i < l.length then v else l.getD j d := by
  rw [List.getD_eq_getElem?_getD, List.getElem?_set]
  by_cases hij : i = j
  · subst hij
    by_cases hlt : i < l.length
    · simp [hlt]
    · simp [hlt, List.getD_eq_getElem?_getD,
        List.getElem?_eq_none (Nat.le_of_not_lt hlt)]
  · simp [hij, List.getD_eq_getElem?_getD]

theorem getD_zipWith {α β γ : Type _} (f : α → β → γ) (l1 : List α) (l2 : List β)
    (i : Nat) (d : γ) (d1 : α) (d2 : β) (h1 : i < l1.length) (h2 : i < l2.length) :
    (List.zipWith f l1 l2).getD i d = f (l1.getD i d1) (l2.getD i d2) := by
  have hz : i < (List.zipWith f l1 l2).length := by
    rw [List.length_zipWith]; exact lt_min h1 h2
  rw [List.getD_eq_getElem _ _ hz, List.getElem_zipWith,
    List.getD_eq_getElem _ _ h1, List.getD_eq_getElem _ _ h2]

theorem getD_map {α β : Type _} (f : α → β) (l : List α) (i : Nat) (d : β) (d' : α)
    (h : i < l.length) :
    (l.map f).getD i d = f (l.getD i d') := by
  have hm : i < (l.map f).length := by simpa using h
  rw [List.getD_eq_getElem _ _ hm, List.getElem_map, List.getD_eq_getElem _ _ h]

theorem addAt_length (l : List ℚ) (j : Nat) (v : ℚ) :
    (addAt l j v).length = l.length :=
  List.length_set l j _

theorem getD_addAt (l : List ℚ) (j i : Nat) (v : ℚ) (hi : i < l.length) :
    (addAt l j v).getD i 0 = l.getD i 0 + if j = i then v else 0 := by
  unfold addAt
  rw [getD_set]
  by_cases hji : j = i
  · subst hji; simp [hi]
  · simp [hji]

theorem foldl_invariant {α β : Type _} (P : α → Prop) (f : α → β → α) (l : List β)
    (a : α) (ha : P a) (hf : ∀ x b, b ∈ l → P x → P (f x b)) : P (l.foldl f a) := by
  induction l generalizing a with
  | nil => exact ha
  | cons c t ih =>
      exact ih (f a c) (hf a c (List.mem_cons_self c t) ha)
        (fun x b hb hx => hf x b (List.mem_cons_of_mem c hb) hx)

theorem foldl_establish {α β : Type _} (P Q : α → Prop) (f : α → β → α) (l : List β)
    (b : β) (hb : b ∈ l) (a : α) (hQ : Q a)
    (hQstep : ∀ x y, Q x → Q (f x y))
    (hest : ∀ x, Q x → P (f x b))
    (hPstep : ∀ x y, P x → Q x → P (f x y)) : P (l.foldl f a) := by
  induction l generalizing a with
  | nil => cases hb
  | cons c t ih =>
      rw [List.foldl_cons]
      rcases List.mem_cons.mp hb with hcb | hbt
      · subst hcb
        have h2 : Q (f a b) := hQstep a b hQ
        have h3 := foldl_invariant (fun x => P x ∧ Q x) f t (f a b)
          ⟨hest a hQ, h2⟩ (fun x y _ hx => ⟨hPstep x y hx.1 hx.2, hQstep x y hx.2⟩)
        exact h3.1
      · exact ih hbt (f a c) (hQstep a c hQ)

theorem foldl_add_general {α β : Type _} (proj : α → ℚ) (Q : α → Prop)
    (f : α → β → α) (v : β → ℚ) (l : List β) (a : α) (hQ : Q a)
    (hQstep : ∀ x b, b ∈ l → Q x → Q (f x b))
    (hstep : ∀ x b, b ∈ l → Q x → proj (f x b) = proj x + v b) :
    proj (l.foldl f a) = proj a + (l.map v).sum := by
  induction l generalizing a with
  | nil => simp
  | cons c t ih =>
      rw [List.foldl_cons, List.map_cons, List.sum_cons]
      rw [ih (f a c) (hQstep a c (List.mem_cons_self c t) hQ)
        (fun x b hb hx => hQstep x b (List.mem_cons_of_mem c hb) hx)
        (fun x b hb hx => hstep x b (List.mem_cons_of_mem c hb) hx)]
      rw [hstep a c (List.mem_cons_self c t) hQ]
      ring

theorem foldl_rel {α β : Type _} (R : α → α → Prop) (f g : α → β → α) (l : List β)
    (a a' : α) (hR : R a a')
    (hstep : ∀ x x' b, b ∈ l → R x x' → R (f x b) (g x' b)) :
    R (l.foldl f a) (l.foldl g a') := by
  induction l generalizing a a' with
  | nil => exact hR
  | cons c t ih =>
      exact ih (f a c) (g a' c) (hstep a a' c (List.mem_cons_self c t) hR)
        (fun x x' b hb hx => hstep x x' b (List.mem_cons_of_mem c hb) hx)

/-! ### Frame lemmas: fields untouched by the assembly passes -/

theorem frame_rfl (s : AsmState) : Frame s s :=
  ⟨rfl, rfl, rfl, rfl, rfl, rfl, rfl, rfl, rfl, rfl⟩

theorem Frame.trans {a b c : AsmState} (h1 : Frame a b) (h2 : Frame b c) : Frame a c :=
  ⟨h2.reuse.trans h1.reuse, h2.oldDt.trans h1.oldDt, h2.dofColor.trans h1.dofColor,
   h2.dofError.trans h1.dofError, h2.elementColor.trans h1.elementColor,
   h2.nextAcc.trans h1.nextAcc, h2.relinAcc.trans h1.relinAcc,
   h2.lenResidual.trans h1.lenResidual, h2.lenStorageTerm.trans h1.lenStorageTerm,
   h2.lenStorageJacobian.trans h1.lenStorageJacobian⟩

theorem frame_assembleGreenElement (p : Params) (g : Grid) (ev : LocalEvaluator)
    (eIdx : Nat) (s : AsmState) : Frame s (assembleGreenElement_ p g ev eIdx s) := by
  unfold assembleGreenElement_
  refine foldl_invariant (fun x => Frame s x) _ _ _ (frame_rfl s) ?_
  intro x b _ hx
  refine Frame.trans hx ?_
  by_cases hrec : p.enableLinearizationRecycling = true <;>
    simp only [hrec, if_pos, if_neg, Bool.false_eq_true, ite_true, ite_false] <;>
    exact ⟨rfl, rfl, rfl, rfl, rfl, rfl, rfl, addAt_length _ _ _,
      by simp [addAt_length], rfl⟩

theorem frame_accumulatePrimaryDof (p : Params) (g : Grid) (ev : LocalEvaluator)
    (eIdx : Nat) (s : AsmState) (pd : Nat) :
    Frame s (accumulatePrimaryDof p g ev eIdx s pd) := by
  unfold accumulatePrimaryDof
  by_cases hrec : p.enableLinearizationRecycling = true <;>
    simp only [hrec, if_pos, if_neg, Bool.false_eq_true, ite_true, ite_false] <;>
    split <;>
    exact ⟨rfl, rfl, rfl, rfl, rfl, rfl, rfl, by simp [addAt_length],
      by simp [addAt_length], by simp [addAt_length]⟩

theorem frame_assembleElement (p : Params) (g : Grid) (ev : LocalEvaluator)
    (eIdx : Nat) (s : AsmState) : Frame s (assembleElement_ p g ev eIdx s) := by
  unfold assembleElement_
  split
  · refine Frame.trans ?_ (frame_assembleGreenElement p g ev eIdx _)
    exact ⟨rfl, rfl, rfl, rfl, rfl, rfl, rfl, rfl, rfl, rfl⟩
  · exact foldl_invariant (fun x => Frame s x) _ _ _ (frame_rfl s)
      (fun x b _ hx => Frame.trans hx (frame_accumulatePrimaryDof p g ev eIdx x b))

theorem frame_resetRowStep (p : Params) (s : AsmState) (rowIdx : Nat) :
    Frame s (resetRowStep p s rowIdx) := by
  unfold resetRowStep
  split
  · exact frame_rfl s
  · split <;>
      exact ⟨rfl, rfl, rfl, rfl, rfl, rfl, rfl, rfl, by simp, by simp⟩

theorem frame_resetSystem (p : Params) (g : Grid) (s : AsmState) :
    Frame s (resetSystem_ p g s) := by
  unfold resetSystem_
  split
  · exact frame_rfl s
  · split
    · split
      · exact ⟨rfl, rfl, rfl, rfl, rfl, rfl, rfl, by simp, by simp, by simp⟩
      · exact ⟨rfl, rfl, rfl, rfl, rfl, rfl, rfl, by simp, rfl, rfl⟩
    · refine foldl_invariant (fun x => Frame s x) _ _ _
        ⟨rfl, rfl, rfl, rfl, rfl, rfl, rfl, by simp, rfl, rfl⟩ ?_
      intro x b _ hx
      exact Frame.trans hx (frame_resetRowStep p x b)

/-! ### Characterization of the coloring passes -/

theorem orangeStep_getD (cs2 : List EntityColor) (gi i : Nat) :
    (if cs2.getD gi .Green ≠ .Red then cs2.set gi .Orange else cs2).getD i .Green =
      if gi = i ∧ i < cs2.length ∧ cs2.getD i .Green ≠ .Red then .Orange
      else cs2.getD i .Green := by
  by_cases hred : cs2.getD gi .Green = .Red
  · rw [if_neg (not_not_intro hred)]
    by_cases hgi : gi = i
    · subst hgi
      rw [if_neg (fun h => h.2.2 hred)]
    · rw [if_neg (fun h => hgi h.1)]
  · rw [if_pos hred, getD_set]
    by_cases hgi : gi = i
    · subst hgi
      by_cases hlt : gi < cs2.length
      · rw [if_pos ⟨rfl, hlt⟩, if_pos ⟨rfl, hlt, hred⟩]
      · rw [if_neg (fun h => hlt h.2), if_neg (fun h => hlt h.2.1)]
    · rw [if_neg (fun h => hgi h.1), if_neg (fun h => hgi h.1)]

theorem yellowStep_getD (cs2 : List EntityColor) (gi i : Nat) :
    (if cs2.getD gi .Green = .Orange then cs2.set gi .Yellow else cs2).getD i .Green =
      if gi = i ∧ i < cs2.length ∧ cs2.getD i .Green = .Orange then .Yellow
      else cs2.getD i .Green := by
  by_cases hor : cs2.getD gi .Green = .Orange
  · rw [if_pos hor, getD_set]
    by_cases hgi : gi = i
    · subst hgi
      by_cases hlt : gi < cs2.length
      · rw [if_pos ⟨rfl, hlt⟩, if_pos ⟨rfl, hlt, hor⟩]
      · rw [if_neg (fun h => hlt h.2), if_neg (fun h => hlt h.2.1)]
    · rw [if_neg (fun h => hgi h.1), if_neg (fun h => hgi h.1)]
  · rw [if_neg hor]
    by_cases hgi : gi = i
    · subst hgi
      rw [if_neg (fun h => hor h.2.2)]
    · rw [if_neg (fun h => hgi h.1)]

theorem markOrange_length (g : Grid) (ec cs : List EntityColor) :
    (markOrangeDofs g ec cs).length = cs.length := by
  unfold markOrangeDofs
  refine foldl_invariant (fun (x : List EntityColor) => x.length = cs.length) _ _ _ rfl ?_
  intro x b _ hx
  split
  · exact hx
  · refine foldl_invariant (fun (y : List EntityColor) => y.length = cs.length) _ _ _ hx ?_
    intro y c _ hy
    split
    · simpa using hy
    · exact hy

theorem demote_length (g : Grid) (ec cs : List EntityColor) :
    (demoteOrangeDofs g ec cs).length = cs.length := by
  unfold demoteOrangeDofs
  refine foldl_invariant (fun (x : List EntityColor) => x.length = cs.length) _ _ _ rfl ?_
  intro x b _ hx
  split
  · exact hx
  · refine foldl_invariant (fun (y : List EntityColor) => y.length = cs.length) _ _ _ hx ?_
    intro y c _ hy
    split
    · simpa using hy
    · exact hy

theorem markOrange_getD (g : Grid) (ec cs : List EntityColor) (i : Nat) :
    (markOrangeDofs g ec cs).getD i .Green = cs.getD i .Green
    ∨ ((markOrangeDofs g ec cs).getD i .Green = .Orange
        ∧ cs.getD i .Green ≠ .Red) := by
  unfold markOrangeDofs
  refine foldl_invariant
    (fun (x : List EntityColor) => x.getD i .Green = cs.getD i .Green
      ∨ (x.getD i .Green = .Orange ∧ cs.getD i .Green ≠ .Red)) _ _ _
    (Or.inl rfl) ?_
  intro x b _ hx
  split
  · exact hx
  · refine foldl_invariant
      (fun (y : List EntityColor) => y.getD i .Green = cs.getD i .Green
        ∨ (y.getD i .Green = .Orange ∧ cs.getD i .Green ≠ .Red)) _ _ _ hx ?_
    intro y c _ hy
    rw [orangeStep_getD]
    split
    · rename_i hcond
      refine Or.inr ⟨rfl, ?_⟩
      rcases hy with hy | hy
      · exact fun hred => hcond.2.2 (hy.trans hred)
      · exact hy.2
    · exact hy

theorem demote_getD (g : Grid) (ec cs : List EntityColor) (i : Nat) :
    (demoteOrangeDofs g ec cs).getD i .Green = cs.getD i .Green
    ∨ ((demoteOrangeDofs g ec cs).getD i .Green = .Yellow
        ∧ cs.getD i .Green = .Orange) := by
  unfold demoteOrangeDofs
  refine foldl_invariant
    (fun (x : List EntityColor) => x.getD i .Green = cs.getD i .Green
      ∨ (x.getD i .Green = .Yellow ∧ cs.getD i .Green = .Orange)) _ _ _
    (Or.inl rfl) ?_
  intro x b _ hx
  split
  · exact hx
  · refine foldl_invariant
      (fun (y : List EntityColor) => y.getD i .Green = cs.getD i .Green
        ∨ (y.getD i .Green = .Yellow ∧ cs.getD i .Green = .Orange)) _ _ _ hx ?_
    intro y c _ hy
    rw [yellowStep_getD]
    split
    · rename_i hcond
      rcases hy with hy | hy
      · exact Or.inr ⟨rfl, hy.symm.trans hcond.2.2⟩
      · exact absurd (hy.1.symm.trans hcond.2.2) (by decide)
    · exact hy

theorem elementColorsOf_getD (g : Grid) (cs : List EntityColor) (e : Nat)
    (he : e < g.elems.length) :
    (elementColorsOf g cs).getD e .Green =
      if (g.elems.getD e defaultElem).stencilDofs.any
          (fun gi => cs.getD gi .Green = .Red) then .Red
      else .Green := by
  unfold elementColorsOf
  rw [getD_map _ _ _ _ defaultElem he]

theorem markYellow_getD (g : Grid) (cs ec : List EntityColor) (e : Nat)
    (he1 : e < g.elems.length) (he2 : e < ec.length) :
    (markYellowElements g cs ec).getD e .Green =
      if ec.getD e .Green = .Red then EntityColor.Red
      else if (g.elems.getD e defaultElem).stencilDofs.any
          (fun gi => cs.getD gi .Green = .Orange) then .Yellow
      else ec.getD e .Green := by
  unfold markYellowElements
  rw [getD_zipWith _ _ _ e EntityColor.Green defaultElem EntityColor.Green he1 he2]
  split
  · rename_i h
    exact h
  · rfl

theorem promote_getD (cs : List EntityColor) (i : Nat) (h : i < cs.length) :
    (promoteColors cs).getD i .Green =
      if cs.getD i .Green = .Green ∨ cs.getD i .Green = .Yellow then cs.getD i .Green
      else .Red := by
  unfold promoteColors
  rw [getD_map _ _ _ _ EntityColor.Green h]

theorem thresholdColors_getD (tolerance : ℚ) (colors : List EntityColor)
    (errors : List ℚ) (i : Nat) (h1 : i < colors.length) (h2 : i < errors.length) :
    (thresholdColors tolerance colors errors).getD i .Green =
      if errors.getD i 0 > tolerance then .Red else colors.getD i .Green := by
  unfold thresholdColors
  rw [getD_zipWith _ _ _ i EntityColor.Green EntityColor.Green 0 h1 h2]

theorem thresholdColors_length (tolerance : ℚ) (colors : List EntityColor)
    (errors : List ℚ) (h : errors.length = colors.length) :
    (thresholdColors tolerance colors errors).length = colors.length := by
  unfold thresholdColors
  rw [List.length_zipWith, h, min_self]

theorem computeColors_dofColor (p : Params) (g : Grid) (tolerance : ℚ)
    (st : AsmState) (hp : p.enablePartialRelinearization = true) :
    (computeColors p g tolerance st).dofColor =
      promoteColors (demoteOrangeDofs g
        (markYellowElements g
          (markOrangeDofs g
            (elementColorsOf g (thresholdColors tolerance st.dofColor st.dofError))
            (thresholdColors tolerance st.dofColor st.dofError))
          (elementColorsOf g (thresholdColors tolerance st.dofColor st.dofError)))
        (markOrangeDofs g
          (elementColorsOf g (thresholdColors tolerance st.dofColor st.dofError))
          (thresholdColors tolerance st.dofColor st.dofError))) := by
  simp [computeColors, hp]

theorem computeColors_elementColor (p : Params) (g : Grid) (tolerance : ℚ)
    (st : AsmState) (hp : p.enablePartialRelinearization = true) :
    (computeColors p g tolerance st).elementColor =
      markYellowElements g
        (markOrangeDofs g
          (elementColorsOf g (thresholdColors tolerance st.dofColor st.dofError))
          (thresholdColors tolerance st.dofColor st.dofError))
        (elementColorsOf g (thresholdColors tolerance st.dofColor st.dofError)) := by
  simp [computeColors, hp]

theorem computeColors_nextAcc (p : Params) (g : Grid) (tolerance : ℚ)
    (st : AsmState) (hp : p.enablePartialRelinearization = true) :
    (computeColors p g tolerance st).nextRelinearizationAccuracy =
      thresholdAccuracy tolerance st.dofError := by
  simp [computeColors, hp]

theorem computeColors_reuse (p : Params) (g : Grid) (tolerance : ℚ) (st : AsmState) :
    (computeColors p g tolerance st).reuseLinearization = st.reuseLinearization := by
  unfold computeColors
  split <;> rfl

theorem elementColorsOf_length (g : Grid) (cs : List EntityColor) :
    (elementColorsOf g cs).length = g.elems.length := by
  simp [elementColorsOf]

theorem markYellow_length (g : Grid) (cs ec : List EntityColor)
    (h : ec.length = g.elems.length) :
    (markYellowElements g cs ec).length = g.elems.length := by
  simp [markYellowElements, List.length_zipWith, h]

theorem demote_green_elem (g : Grid) (ec cs : List EntityColor) (e i : Nat)
    (he : e < g.elems.length) (hgreen : ec.getD e .Green = .Green)
    (hi : i ∈ (g.elems.getD e defaultElem).stencilDofs) (hlen : i < cs.length) :
    (demoteOrangeDofs g ec cs).getD i .Green ≠ .Orange := by
  unfold demoteOrangeDofs
  refine foldl_establish
    (fun (x : List EntityColor) => x.getD i .Green ≠ .Orange)
    (fun (x : List EntityColor) => x.length = cs.length)
    _ (List.range g.elems.length) e (List.mem_range.mpr he) cs rfl ?_ ?_ ?_
  · intro x y hx
    split
    · exact hx
    · refine foldl_invariant (fun (z : List EntityColor) => z.length = cs.length)
        _ _ _ hx ?_
      intro z c _ hz
      split
      · simpa using hz
      · exact hz
  · intro x hx
    rw [if_neg (not_not_intro hgreen)]
    refine foldl_establish
      (fun (y : List EntityColor) => y.getD i .Green ≠ .Orange)
      (fun (y : List EntityColor) => y.length = cs.length)
      _ _ i hi x hx ?_ ?_ ?_
    · intro y c hy
      split
      · simpa using hy
      · exact hy
    · intro y hy
      rw [yellowStep_getD]
      by_cases hor : y.getD i .Green = .Orange
      · rw [if_pos ⟨rfl, by rw [hy]; exact hlen, hor⟩]
        decide
      · rw [if_neg (fun h => hor h.2.2)]
        exact hor
    · intro y c hy _
      rw [yellowStep_getD]
      split
      · decide
      · exact hy
  · intro x y hx hq
    split
    · exact hx
    · refine foldl_invariant (fun (z : List EntityColor) => z.getD i .Green ≠ .Orange)
        _ _ _ hx ?_
      intro z c _ hz
      rw [yellowStep_getD]
      split
      · decide
      · exact hz

/-! ### Claim C2: error threshold monotonicity of computeColors -/

/-- C2: with partial relinearization enabled, every degree of freedom whose
recorded error exceeds the tolerance when `computeColors(tolerance)` is
called is red when `computeColors` returns. -/
theorem claim_C2_threshold_red (p : Params) (g : Grid) (tolerance : ℚ)
    (st : AsmState) (i : Nat)
    (hp : p.enablePartialRelinearization = true)
    (hlen : st.dofError.length = st.dofColor.length)
    (hi : i < st.dofColor.length)
    (herr : st.dofError.getD i 0 > tolerance) :
    dofColorQ p (computeColors p g tolerance st) i = .Red := by
  have hq : dofColorQ p (computeColors p g tolerance st) i
      = (computeColors p g tolerance st).dofColor.getD i .Green := by
    simp [dofColorQ, hp]
  rw [hq, computeColors_dofColor p g tolerance st hp]
  set c1 := thresholdColors tolerance st.dofColor st.dofError with hc1def
  set ec2 := elementColorsOf g c1 with hec2def
  set c3 := markOrangeDofs g ec2 c1 with hc3def
  set ec4 := markYellowElements g c3 ec2 with hec4def
  set c5 := demoteOrangeDofs g ec4 c3 with hc5def
  have hc1len : c1.length = st.dofColor.length := thresholdColors_length _ _ _ hlen
  have h1 : c1.getD i .Green = .Red := by
    rw [hc1def, thresholdColors_getD _ _ _ _ hi (by rw [hlen]; exact hi), if_pos herr]
  have h3 : c3.getD i .Green = .Red := by
    rcases markOrange_getD g ec2 c1 i with h | h
    · exact h.trans h1
    · exact absurd h1 h.2
  have h5 : c5.getD i .Green = .Red := by
    rcases demote_getD g ec4 c3 i with h | h
    · exact h.trans h3
    · exact absurd (h3.symm.trans h.2) (by decide)
  have hlen5 : i < c5.length := by
    rw [hc5def, demote_length, hc3def, markOrange_length, hc1len]
    exact hi
  rw [promote_getD c5 i hlen5, h5, if_neg (by decide)]

/-! ### Claim C3: propagation closure of computeColors -/

/-- C3 (as stated, first conjunct) is false: in the three-dof chain with one
high-error degree of freedom (error 7, tolerance 2), dof 1 ends up red
(promoted from orange because it has no green neighbor element), yet
element 1, whose stencil contains dof 1, ends up yellow, not red. -/
theorem claim_C3_counterexample :
    1 ∈ (gC3.elems.getD 1 defaultElem).stencilDofs
    ∧ dofColorQ pPR (computeColors pPR gC3 2 stC3) 1 = .Red
    ∧ elementColorQ pPR (computeColors pPR gC3 2 stC3) 1 ≠ .Red := by
  decide

/-- C3 amended: with partial relinearization enabled on a single partition,
after `computeColors` every element whose stencil contains a red degree of
freedom is not green (it is red or yellow), and equivalently no degree of
freedom of a green element is red. -/
theorem claim_C3_amended (p : Params) (g : Grid) (tolerance : ℚ) (st : AsmState)
    (e i : Nat)
    (hp : p.enablePartialRelinearization = true)
    (hwf : ∀ el ∈ g.elems, ∀ d ∈ el.stencilDofs, d < g.numDof)
    (hclen : st.dofColor.length = g.numDof)
    (helen : st.dofError.length = g.numDof)
    (he : e < g.elems.length)
    (hi : i ∈ (g.elems.getD e defaultElem).stencilDofs)
    (hred : dofColorQ p (computeColors p g tolerance st) i = .Red) :
    elementColorQ p (computeColors p g tolerance st) e ≠ .Green := by
  have hq : dofColorQ p (computeColors p g tolerance st) i
      = (computeColors p g tolerance st).dofColor.getD i .Green := by
    simp [dofColorQ, hp]
  have hqe : elementColorQ p (computeColors p g tolerance st) e
      = (computeColors p g tolerance st).elementColor.getD e .Green := by
    simp [elementColorQ, hp]
  rw [hq, computeColors_dofColor p g tolerance st hp] at hred
  rw [hqe, computeColors_elementColor p g tolerance st hp]
  set c1 := thresholdColors tolerance st.dofColor st.dofError with hc1def
  set ec2 := elementColorsOf g c1 with hec2def
  set c3 := markOrangeDofs g ec2 c1 with hc3def
  set ec4 := markYellowElements g c3 ec2 with hec4def
  set c5 := demoteOrangeDofs g ec4 c3 with hc5def
  have hel : g.elems.getD e defaultElem ∈ g.elems := by
    rw [List.getD_eq_getElem _ _ he]
    exact List.getElem_mem he
  have hidof : i < g.numDof := hwf _ hel i hi
  have hc1len : c1.length = st.dofColor.length :=
    thresholdColors_length _ _ _ (helen.trans hclen.symm)
  have hic1 : i < c1.length := by rw [hc1len, hclen]; exact hidof
  have hic3 : i < c3.length := by rw [hc3def, markOrange_length]; exact hic1
  have hic5 : i < c5.length := by rw [hc5def, demote_length]; exact hic3
  have hec2len : ec2.length = g.elems.length := elementColorsOf_length g c1
  have heec2 : e < ec2.length := by rw [hec2len]; exact he
  rw [promote_getD c5 i hic5] at hred
  intro hgreen
  cases hc5i : c5.getD i .Green with
  | Red =>
    -- c5 red: the red color came through from the threshold pass, so the
    -- element was painted red by the element coloring pass
    have h3 : c3.getD i .Green = .Red := by
      rcases demote_getD g ec4 c3 i with h | h
      · exact h.symm.trans hc5i
      · exact absurd (hc5i.symm.trans h.1) (by decide)
    have h1 : c1.getD i .Green = .Red := by
      rcases markOrange_getD g ec2 c1 i with h | h
      · exact h.symm.trans h3
      · exact absurd (h3.symm.trans h.1) (by decide)
    have hany : ((g.elems.getD e defaultElem).stencilDofs.any
        (fun gi => c1.getD gi .Green = .Red)) = true := by
      rw [List.any_eq_true]
      exact ⟨i, hi, by rw [decide_eq_true_eq]; exact h1⟩
    have hec2e : ec2.getD e .Green = .Red := by
      rw [hec2def, elementColorsOf_getD g c1 e he, if_pos hany]
    have hec4e : ec4.getD e .Green = .Red := by
      rw [hec4def, markYellow_getD g c3 ec2 e he heec2, if_pos hec2e]
    exact absurd (hgreen.symm.trans hec4e) (by decide)
  | Yellow =>
    rw [hc5i] at hred
    exact absurd hred (by decide)
  | Orange =>
    exact demote_green_elem g ec4 c3 e i he hgreen hi hic3 hc5i
  | Green =>
    rw [hc5i] at hred
    exact absurd hred (by decide)

/-- Witness for the amended C3 at the concrete chain: element 0 contains the
red dof 0 and indeed is not green. -/
theorem claim_C3_amended_witness :
    elementColorQ pPR (computeColors pPR gC3 2 stC3) 0 ≠ .Green :=
  claim_C3_amended pPR gC3 2 stC3 0 0 rfl (by decide) rfl rfl (by decide)
    (by decide) (by decide)

/-- Witness for C2 at the concrete chain: dof 0 has error 1 above the
tolerance 1/2 and is red after the coloring pass. -/
theorem claim_C2_witness :
    dofColorQ pPR (computeColors pPR gC3 2 stC3) 0 = .Red :=
  claim_C2_threshold_red pPR gC3 2 stC3 0 rfl rfl (by decide) (by decide)

/-! ### The recycled assembly path -/

theorem reuseFold_untouched (curDt : ℚ) (st : AsmState) (n k : Nat) (hk : n ≤ k) :
    ((List.range n).foldl (reuseStep curDt) st).matrix k k = st.matrix k k
    ∧ ((List.range n).foldl (reuseStep curDt) st).storageJacobian.getD k 0
        = st.storageJacobian.getD k 0 := by
  refine foldl_invariant (fun (x : AsmState) =>
      x.matrix k k = st.matrix k k
      ∧ x.storageJacobian.getD k 0 = st.storageJacobian.getD k 0) _ _ _ ⟨rfl, rfl⟩ ?_
  intro x b hb hx
  have hbk : b ≠ k := by
    have := List.mem_range.mp hb
    omega
  constructor
  · simp only [reuseStep, matSet]
    rw [if_neg (fun h => hbk h.1.symm)]
    exact hx.1
  · simp only [reuseStep]
    rw [getD_set, if_neg (fun h => hbk h.1)]
    exact hx.2

theorem reuseFold_frame (curDt : ℚ) (st : AsmState) (n : Nat) :
    ((List.range n).foldl (reuseStep curDt) st).storageTerm = st.storageTerm
    ∧ ((List.range n).foldl (reuseStep curDt) st).oldDt = st.oldDt
    ∧ ((List.range n).foldl (reuseStep curDt) st).residual.length = st.residual.length
    ∧ ((List.range n).foldl (reuseStep curDt) st).dofColor = st.dofColor
    ∧ ((List.range n).foldl (reuseStep curDt) st).elementColor = st.elementColor
    ∧ ((List.range n).foldl (reuseStep curDt) st).reuseLinearization
        = st.reuseLinearization
    ∧ ((List.range n).foldl (reuseStep curDt) st).nextRelinearizationAccuracy
        = st.nextRelinearizationAccuracy := by
  refine foldl_invariant (fun (x : AsmState) =>
      x.storageTerm = st.storageTerm ∧ x.oldDt = st.oldDt
      ∧ x.residual.length = st.residual.length ∧ x.dofColor = st.dofColor
      ∧ x.elementColor = st.elementColor
      ∧ x.reuseLinearization = st.reuseLinearization
      ∧ x.nextRelinearizationAccuracy = st.nextRelinearizationAccuracy) _ _ _
    ⟨rfl, rfl, rfl, rfl, rfl, rfl, rfl⟩ ?_
  intro x b _ hx
  refine ⟨hx.1, hx.2.1, ?_, hx.2.2.2.1, hx.2.2.2.2.1, hx.2.2.2.2.2.1, hx.2.2.2.2.2.2⟩
  simp only [reuseStep]
  rw [List.length_set]
  exact hx.2.2.1

theorem reuseFold_spec (curDt : ℚ) (st : AsmState) (n i : Nat)
    (hi : i < n) (hires : i < st.residual.length) :
    ((List.range n).foldl (reuseStep curDt) st).matrix i i
      = st.matrix i i - st.storageJacobian.getD i 0
        + st.storageJacobian.getD i 0 * (st.oldDt / curDt)
    ∧ ((List.range n).foldl (reuseStep curDt) st).residual.getD i 0
      = -(st.storageTerm.getD i 0) := by
  induction n with
  | zero => exact absurd hi (Nat.not_lt_zero i)
  | succ n ih =>
      rw [List.range_succ, List.foldl_append, List.foldl_cons, List.foldl_nil]
      by_cases hin : i < n
      · have hni : n ≠ i := by omega
        obtain ⟨hm, hr⟩ := ih hin
        constructor
        · simp only [reuseStep, matSet]
          rw [if_neg (fun h => hni h.1.symm)]
          exact hm
        · simp only [reuseStep]
          rw [getD_set, if_neg (fun h => hni h.1)]
          exact hr
      · have hieq : i = n := by omega
        subst hieq
        have hu := reuseFold_untouched curDt st i i (le_refl i)
        have hf := reuseFold_frame curDt st i
        constructor
        · simp only [reuseStep, matSet]
          rw [if_pos (And.intro trivial trivial), hu.1, hu.2, hf.2.1]
        · simp only [reuseStep]
          rw [getD_set, if_pos ⟨rfl, by rw [hf.2.2.1]; exact hires⟩, hf.1]

theorem assembleReuse_spec (curDt : ℚ) (st : AsmState) (i : Nat)
    (hi : i < st.storageJacobian.length) (hires : i < st.residual.length) :
    (assembleReuse curDt st).matrix i i
      = st.matrix i i - st.storageJacobian.getD i 0
        + st.storageJacobian.getD i 0 * (st.oldDt / curDt)
    ∧ (assembleReuse curDt st).residual.getD i 0 = -(st.storageTerm.getD i 0)
    ∧ (assembleReuse curDt st).reuseLinearization = false := by
  obtain ⟨hm, hr⟩ := reuseFold_spec curDt st st.storageJacobian.length i hi hires
  exact ⟨hm, hr, rfl⟩

theorem assemble__reuse (p : Params) (g : Grid) (ev : LocalEvaluator) (curDt : ℚ)
    (st : AsmState) (hreuse : st.reuseLinearization = true) :
    assemble_ p g ev curDt st = assembleReuse curDt st := by
  unfold assemble_
  rw [show resetSystem_ p g st = st by unfold resetSystem_; rw [if_pos hreuse]]
  rw [if_pos hreuse]

/-! ### Claim C1: the recycled assembly rescales the storage cache -/

/-- C1: after a recycled `assemble()` (reuse flag set, recycling enabled),
the diagonal Jacobian block of every degree of freedom equals its previous
value minus the cached storage Jacobian plus that cache rescaled by
(previous time step size / current time step size), the residual entry is
the negated cached storage residual, and the reuse flag is cleared. -/
theorem claim_C1_recycled_assembly (p : Params) (g : Grid) (ev : LocalEvaluator)
    (curDt : ℚ) (st : AsmState) (i : Nat)
    (hrec : p.enableLinearizationRecycling = true)
    (hreuse : st.reuseLinearization = true)
    (hres : st.residual.length = st.storageJacobian.length)
    (hi : i < st.storageJacobian.length) :
    (assemble p g ev curDt st).map
        (fun s => (s.matrix i i, s.residual.getD i 0, s.reuseLinearization))
      = some (st.matrix i i - st.storageJacobian.getD i 0
                + st.storageJacobian.getD i 0 * (st.oldDt / curDt),
              -(st.storageTerm.getD i 0), false) := by
  have hires : i < st.residual.length := by rw [hres]; exact hi
  have hsucc : assembleSucceeds g ev st = true := by
    unfold assembleSucceeds
    rw [hreuse]
    rfl
  obtain ⟨hm, hr, hf⟩ := assembleReuse_spec curDt st i hi hires
  simp only [assemble, hsucc, Bool.not_true, Bool.false_eq_true, ite_false,
    assemble__reuse p g ev curDt st hreuse, hreuse, Bool.false_and, Option.map_some]
  exact congrArg some (by dsimp only; rw [hm, hr, hf])

/-! ### Claim C5: the residual reset and the recycled path -/

theorem resetSystem_residual (p : Params) (g : Grid) (st : AsmState)
    (hreuse : st.reuseLinearization = false) :
    (resetSystem_ p g st).residual = List.replicate st.residual.length 0 := by
  unfold resetSystem_
  rw [hreuse, if_neg (by decide)]
  split
  · split <;> rfl
  · refine foldl_invariant
      (fun (x : AsmState) => x.residual = List.replicate st.residual.length 0) _ _ _
      rfl ?_
    intro x b _ hx
    unfold resetRowStep
    split
    · exact hx
    · split <;> exact hx

/-- C5 as stated ("resets the residual vector to zero unconditionally, also
on the recycled path") is false: on the recycled path `resetSystem_` returns
immediately and the nonzero residual survives it. -/
theorem claim_C5_counterexample :
    stC1.reuseLinearization = true
    ∧ (resetSystem_ pLR gC1 stC1).residual = stC1.residual
    ∧ stC1.residual ≠ List.replicate stC1.residual.length 0 := by
  refine ⟨rfl, rfl, ?_⟩
  decide

/-- C5 amended: a non-recycled `assemble()` resets the residual vector to
zero before accumulating; on the recycled path the reset is skipped
(`resetSystem_` returns immediately) and every residual entry is instead
overwritten with the negated cached storage term. -/
theorem claim_C5_amended (p : Params) (g : Grid) (ev : LocalEvaluator) (curDt : ℚ)
    (st : AsmState) :
    (st.reuseLinearization = false →
      (resetSystem_ p g st).residual = List.replicate st.residual.length 0)
    ∧ (st.reuseLinearization = true →
      ∀ i, i < st.storageJacobian.length → i < st.residual.length →
        (assemble_ p g ev curDt st).residual.getD i 0
          = -(st.storageTerm.getD i 0)) := by
  constructor
  · intro hreuse
    exact resetSystem_residual p g st hreuse
  · intro hreuse i hi hires
    rw [assemble__reuse p g ev curDt st hreuse]
    exact (assembleReuse_spec curDt st i hi hires).2.1

/-- Witness for the amended C5: the reset happens on a non-recycled state and
the recycled path overwrites the residual with the negated storage term. -/
theorem claim_C5_witness :
    (resetSystem_ pPR gC3 stC3).residual = List.replicate stC3.residual.length 0
    ∧ (assemble_ pLR gC1 evZero 2 stC1).residual.getD 0 0
        = -(stC1.storageTerm.getD 0 0) :=
  ⟨(claim_C5_amended pPR gC3 evZero 2 stC3).1 rfl,
   (claim_C5_amended pLR gC1 evZero 2 stC1).2 rfl 0 (by decide) (by decide)⟩

/-- Witness for C1 at the two-dof recycled state. -/
theorem claim_C1_witness :
    (assemble pLR gC1 evZero 2 stC1).map
        (fun s => (s.matrix 0 0, s.residual.getD 0 0, s.reuseLinearization))
      = some (stC1.matrix 0 0 - stC1.storageJacobian.getD 0 0
                + stC1.storageJacobian.getD 0 0 * (stC1.oldDt / 2),
              -(stC1.storageTerm.getD 0 0), false) :=
  claim_C1_recycled_assembly pLR gC1 evZero 2 stC1 0 rfl rfl rfl (by decide)

/-! ### Fields preserved by a whole assembly pass -/

theorem frame_traverseElem (p : Params) (g : Grid) (ev : LocalEvaluator)
    (s : AsmState) (eIdx : Nat) : Frame s (traverseElem p g ev s eIdx) := by
  unfold traverseElem
  split
  · exact frame_assembleElement p g ev eIdx s
  · exact frame_rfl s

theorem frame_traversalFold (p : Params) (g : Grid) (ev : LocalEvaluator)
    (s : AsmState) :
    Frame s ((List.range g.elems.length).foldl (traverseElem p g ev) s) := by
  refine foldl_invariant (fun x => Frame s x) _ _ _ (frame_rfl s) ?_
  intro x b _ hx
  exact Frame.trans hx (frame_traverseElem p g ev x b)

theorem assemble__preserves (p : Params) (g : Grid) (ev : LocalEvaluator)
    (curDt : ℚ) (st : AsmState) :
    (assemble_ p g ev curDt st).dofColor = st.dofColor
    ∧ (assemble_ p g ev curDt st).elementColor = st.elementColor
    ∧ (assemble_ p g ev curDt st).nextRelinearizationAccuracy
        = st.nextRelinearizationAccuracy := by
  have hrs := frame_resetSystem p g st
  unfold assemble_
  dsimp only
  split
  · have hfr := reuseFold_frame curDt (resetSystem_ p g st)
      (resetSystem_ p g st).storageJacobian.length
    simp only [assembleReuse]
    exact ⟨(hfr.2.2.2.1).trans hrs.dofColor,
      (hfr.2.2.2.2.1).trans hrs.elementColor,
      (hfr.2.2.2.2.2.2).trans hrs.nextAcc⟩
  · have ht := frame_traversalFold p g ev
      { resetSystem_ p g st with oldDt := curDt, greenElems := 0 }
    exact ⟨ht.dofColor.trans hrs.dofColor,
      ht.elementColor.trans hrs.elementColor,
      ht.nextAcc.trans hrs.nextAcc⟩

/-! ### Claim C9: assemble resets dof colors to green, element colors are a
frame -/

/-- C9: every `assemble()` call that does not raise resets every degree of
freedom color to green (also when the linearization was recycled) and leaves
the element colors exactly as they were before the call; the other mutators
of the assembler state (`markDofRed`, `setLinearizationReusable`) do not
touch element colors either — they change only through `computeColors` or
`relinearizeAll`. -/
theorem claim_C9_colors_frame (p : Params) (g : Grid) (ev : LocalEvaluator)
    (curDt : ℚ) (st : AsmState) (hsucc : assembleSucceeds g ev st = true) :
    ((assemble p g ev curDt st).map (fun s => (s.dofColor, s.elementColor))
      = some (List.replicate st.dofColor.length .Green, st.elementColor))
    ∧ (∀ i, (markDofRed p st i).elementColor = st.elementColor)
    ∧ (∀ b, (setLinearizationReusable p st b).elementColor = st.elementColor) := by
  refine ⟨?_, fun i => ?_, fun b => ?_⟩
  · obtain ⟨hc, he, _⟩ := assemble__preserves p g ev curDt st
    by_cases hcond :
        (!st.reuseLinearization && p.enablePartialRelinearization) = true
    · simp only [assemble, hsucc, Bool.not_true, Bool.false_eq_true, ite_false,
        hcond, ite_true, Option.map_some]
      exact congrArg some (by dsimp only; rw [hc, he])
    · simp only [assemble, hsucc, Bool.not_true, Bool.false_eq_true, ite_false,
        hcond, Option.map_some]
      exact congrArg some (by dsimp only; rw [hc, he])
  · unfold markDofRed
    split <;> rfl
  · unfold setLinearizationReusable
    split <;> rfl

/-- Witness for C9 at a concrete recycled call: dof colors become green,
element colors stay put. -/
theorem claim_C9_witness :
    ((assemble pLR gC1 evZero 2 stC1).map (fun s => (s.dofColor, s.elementColor))
      = some (List.replicate stC1.dofColor.length .Green, stC1.elementColor))
    ∧ (markDofRed pLR stC1 0).elementColor = stC1.elementColor
    ∧ (setLinearizationReusable pLR stC1 true).elementColor = stC1.elementColor :=
  ⟨(claim_C9_colors_frame pLR gC1 evZero 2 stC1 (by decide)).1,
   (claim_C9_colors_frame pLR gC1 evZero 2 stC1 (by decide)).2.1 0,
   (claim_C9_colors_frame pLR gC1 evZero 2 stC1 (by decide)).2.2 true⟩

/-! ### Claim C4: what relinearizationAccuracy actually reports -/

/-- C4 as stated is false: in the two-element chain with errors
`[100, 3, 1]` and tolerance 10, the only dof classified green by the
coloring pass is dof 2 with error 1, but after the following assembly
`relinearizationAccuracy()` reports 3 — the error of dof 1, which the
coloring pass classified red (by promotion from orange). -/
theorem claim_C4_counterexample :
    (computeColors pPR gC4 10 stC4).dofColor = [.Red, .Red, .Green]
    ∧ stC4.dofError = [100, 3, 1]
    ∧ (computeColors pPR gC4 10 stC4).dofError = [0, 0, 1]
    ∧ (assemble pPR gC4 evZero 1 (computeColors pPR gC4 10 stC4)).map
        (fun s => s.relinearizationAccuracy) = some 3
    ∧ (3 : ℚ) ≠ 1 := by
  refine ⟨by decide, rfl, by decide, by decide, by decide⟩

/-- C4 amended: after a non-reused `assemble()` that followed a
`computeColors(tolerance)` call (partial relinearization enabled),
`relinearizationAccuracy()` returns the maximum recorded error over the
degrees of freedom whose error did not exceed the tolerance at that coloring
pass — a set that also contains the dofs finally classified yellow or
promoted to red, not only the green ones. -/
theorem claim_C4_amended (p : Params) (g : Grid) (ev : LocalEvaluator)
    (curDt tolerance : ℚ) (st : AsmState)
    (hp : p.enablePartialRelinearization = true)
    (hreuse : st.reuseLinearization = false)
    (hsucc : assembleSucceeds g ev (computeColors p g tolerance st) = true) :
    (assemble p g ev curDt (computeColors p g tolerance st)).map
        (fun s => s.relinearizationAccuracy)
      = some (thresholdAccuracy tolerance st.dofError) := by
  have hreuse1 : (computeColors p g tolerance st).reuseLinearization = false := by
    rw [computeColors_reuse]
    exact hreuse
  have hcond : (!(computeColors p g tolerance st).reuseLinearization
      && p.enablePartialRelinearization) = true := by
    rw [hreuse1, hp]
    rfl
  obtain ⟨_, _, hacc⟩ := assemble__preserves p g ev curDt (computeColors p g tolerance st)
  simp only [assemble, hsucc, Bool.not_true, Bool.false_eq_true, ite_false,
    hcond, ite_true, Option.map_some]
  refine congrArg some ?_
  dsimp only
  rw [hacc, computeColors_nextAcc p g tolerance st hp]

/-- Witness for the amended C4 at the concrete two-element chain. -/
theorem claim_C4_witness :
    (assemble pPR gC4 evZero 1 (computeColors pPR gC4 10 stC4)).map
        (fun s => s.relinearizationAccuracy)
      = some (thresholdAccuracy 10 stC4.dofError) :=
  claim_C4_amended pPR gC4 evZero 1 10 stC4 rfl rfl (by decide)

/-! ### Claim C10: the storage cache of green rows accumulates -/

theorem resetSystem_green_storageTerm (p : Params) (g : Grid) (st : AsmState)
    (i : Nat)
    (hp : p.enablePartialRelinearization = true)
    (hreuse : st.reuseLinearization = false)
    (hgreen : st.dofColor.getD i .Green = .Green) :
    (resetSystem_ p g st).storageTerm.getD i 0 = st.storageTerm.getD i 0 := by
  unfold resetSystem_
  rw [if_neg (show ¬(st.reuseLinearization = true) by rw [hreuse]; decide),
    if_neg (show ¬((!p.enablePartialRelinearization) = true) by rw [hp]; decide)]
  refine (foldl_invariant (fun (x : AsmState) =>
      x.storageTerm.getD i 0 = st.storageTerm.getD i 0
      ∧ x.dofColor = st.dofColor) (resetRowStep p) (List.range g.numDof)
      { st with residual := List.replicate st.residual.length 0 }
      ⟨rfl, rfl⟩ ?_).1
  intro x b _ hx
  unfold resetRowStep
  by_cases hb : x.dofColor.getD b .Green = .Green
  · rw [if_pos hb]
    exact hx
  · rw [if_neg hb]
    have hbi : b ≠ i := by
      intro h
      exact hb (by rw [h, hx.2]; exact hgreen)
    constructor
    · split
      · dsimp only
        rw [getD_set, if_neg (fun hh => hbi hh.1)]
        exact hx.1
      · exact hx.1
    · split <;> exact hx.2

theorem accumulatePrimaryDof_storageTerm (p : Params) (g : Grid)
    (ev : LocalEvaluator) (eIdx : Nat) (s : AsmState) (pd i : Nat)
    (hrec : p.enableLinearizationRecycling = true)
    (hi : i < s.storageTerm.length) :
    (accumulatePrimaryDof p g ev eIdx s pd).storageTerm.getD i 0
      = s.storageTerm.getD i 0
        + (if (g.elems.getD eIdx defaultElem).stencilDofs.getD pd 0 = i
            then ev.residualStorage eIdx pd else 0) := by
  unfold accumulatePrimaryDof
  simp only [hrec, reduceIte]
  split
  · rw [getD_addAt _ _ _ _ hi]
  · rw [getD_addAt _ _ _ _ hi]

theorem assembleGreenElement_storageTerm (p : Params) (g : Grid)
    (ev : LocalEvaluator) (eIdx : Nat) (s : AsmState) (i : Nat)
    (hrec : p.enableLinearizationRecycling = true)
    (hi : i < s.storageTerm.length) :
    (assembleGreenElement_ p g ev eIdx s).storageTerm.getD i 0
      = s.storageTerm.getD i 0 + elemStorageContrib g ev eIdx i := by
  unfold assembleGreenElement_ elemStorageContrib
  dsimp only
  refine foldl_add_general (fun (x : AsmState) => x.storageTerm.getD i 0)
    (fun (x : AsmState) => x.storageTerm.length = s.storageTerm.length)
    _ _ _ s rfl ?_ ?_
  · intro x b _ hx
    simp only [hrec, reduceIte]
    rw [addAt_length]
    exact hx
  · intro x b _ hx
    simp only [hrec, reduceIte]
    rw [getD_addAt _ _ _ _ (by rw [hx]; exact hi)]

theorem assembleElement_storageTerm (p : Params) (g : Grid) (ev : LocalEvaluator)
    (eIdx : Nat) (s : AsmState) (i : Nat)
    (hrec : p.enableLinearizationRecycling = true)
    (hi : i < s.storageTerm.length) :
    (assembleElement_ p g ev eIdx s).storageTerm.getD i 0
      = s.storageTerm.getD i 0 + elemStorageContrib g ev eIdx i := by
  unfold assembleElement_
  split
  · exact assembleGreenElement_storageTerm p g ev eIdx _ i hrec hi
  · have h := foldl_add_general (fun (x : AsmState) => x.storageTerm.getD i 0)
      (fun (x : AsmState) => x.storageTerm.length = s.storageTerm.length)
      (accumulatePrimaryDof p g ev eIdx)
      (fun pd => if (g.elems.getD eIdx defaultElem).stencilDofs.getD pd 0 = i
        then ev.residualStorage eIdx pd else 0)
      (List.range (g.elems.getD eIdx defaultElem).numPrimaryDof) s rfl
      (fun x b _ hx =>
        ((frame_accumulatePrimaryDof p g ev eIdx x b).lenStorageTerm).trans hx)
      (fun x b _ hx =>
        accumulatePrimaryDof_storageTerm p g ev eIdx x b i hrec
          (by rw [hx]; exact hi))
    dsimp only at h
    rw [h]
    rfl

theorem traverseElem_storageTerm (p : Params) (g : Grid) (ev : LocalEvaluator)
    (s : AsmState) (eIdx i : Nat)
    (hrec : p.enableLinearizationRecycling = true)
    (hi : i < s.storageTerm.length) :
    (traverseElem p g ev s eIdx).storageTerm.getD i 0
      = s.storageTerm.getD i 0
        + (if (g.elems.getD eIdx defaultElem).interior
            then elemStorageContrib g ev eIdx i else 0) := by
  unfold traverseElem
  split
  · exact assembleElement_storageTerm p g ev eIdx s i hrec hi
  · rw [add_zero]

theorem assemble__storageTerm (p : Params) (g : Grid) (ev : LocalEvaluator)
    (curDt : ℚ) (st : AsmState) (i : Nat)
    (hrec : p.enableLinearizationRecycling = true)
    (hp : p.enablePartialRelinearization = true)
    (hreuse : st.reuseLinearization = false)
    (hgreen : st.dofColor.getD i .Green = .Green)
    (hi : i < st.storageTerm.length) :
    (assemble_ p g ev curDt st).storageTerm.getD i 0
      = st.storageTerm.getD i 0 + totalStorageContrib g ev i := by
  have hrs := frame_resetSystem p g st
  unfold assemble_
  dsimp only
  rw [if_neg (show ¬((resetSystem_ p g st).reuseLinearization = true) by
    rw [hrs.reuse, hreuse]; decide)]
  have hbase : ((resetSystem_ p g st)).storageTerm.getD i 0
      = st.storageTerm.getD i 0 :=
    resetSystem_green_storageTerm p g st i hp hreuse hgreen
  have h := foldl_add_general (fun (x : AsmState) => x.storageTerm.getD i 0)
    (fun (x : AsmState) => x.storageTerm.length = st.storageTerm.length)
    (traverseElem p g ev)
    (fun eIdx => if (g.elems.getD eIdx defaultElem).interior
      then elemStorageContrib g ev eIdx i else 0)
    (List.range g.elems.length)
    { resetSystem_ p g st with oldDt := curDt, greenElems := 0 }
    hrs.lenStorageTerm
    (fun x b _ hx => ((frame_traverseElem p g ev x b).lenStorageTerm).trans hx)
    (fun x b _ hx =>
      traverseElem_storageTerm p g ev x b i hrec (by rw [hx]; exact hi))
  dsimp only at h
  rw [h]
  show (resetSystem_ p g st).storageTerm.getD i 0 + _ = _
  rw [hbase]
  rfl

/-- C10: with recycling and partial relinearization enabled, a non-recycled
`assemble()` does not reset the cached storage term of a green row yet still
adds the freshly evaluated storage terms for it, so afterwards the cache
holds the previous cached value plus the new storage contributions, not the
new contributions alone. -/
theorem claim_C10_green_cache_accumulates (p : Params) (g : Grid)
    (ev : LocalEvaluator) (curDt : ℚ) (st : AsmState) (i : Nat)
    (hrec : p.enableLinearizationRecycling = true)
    (hp : p.enablePartialRelinearization = true)
    (hreuse : st.reuseLinearization = false)
    (hgreen : st.dofColor.getD i .Green = .Green)
    (hi : i < st.storageTerm.length)
    (hsucc : assembleSucceeds g ev st = true) :
    (assemble p g ev curDt st).map (fun s => s.storageTerm.getD i 0)
      = some (st.storageTerm.getD i 0 + totalStorageContrib g ev i) := by
  have hst := assemble__storageTerm p g ev curDt st i hrec hp hreuse hgreen hi
  have hcond : (!st.reuseLinearization && p.enablePartialRelinearization) = true := by
    rw [hreuse, hp]
    rfl
  simp only [assemble, hsucc, Bool.not_true, Bool.false_eq_true, ite_false,
    hcond, ite_true, Option.map_some]
  exact congrArg some (by dsimp only; rw [hst])

/-- Witness for C10: the green dof 0 of the two-dof element keeps its stale
cached value 50 and receives the fresh storage contribution on top. -/
theorem claim_C10_witness :
    (assemble pBoth gC10 evC10 1 stC10).map (fun s => s.storageTerm.getD 0 0)
      = some (stC10.storageTerm.getD 0 0 + totalStorageContrib gC10 evC10 0) :=
  claim_C10_green_cache_accumulates pBoth gC10 evC10 1 stC10 0 rfl rfl rfl
    (by decide) (by decide) (by decide)

/-! ### Claim C8: equivalence with the coloring-free assembler -/

theorem resetSystemNoColoring_reuse (p : Params) (st : AsmState) :
    (resetSystemNoColoring p st).reuseLinearization = st.reuseLinearization := by
  unfold resetSystemNoColoring
  split
  · rfl
  · split <;> rfl

theorem resetSystem_noColoring_eq (p : Params) (g : Grid) (st : AsmState)
    (hp : p.enablePartialRelinearization = false) :
    resetSystem_ p g st = resetSystemNoColoring p st := by
  unfold resetSystem_ resetSystemNoColoring
  split
  · rfl
  · rw [if_pos (show (!p.enablePartialRelinearization) = true by rw [hp]; rfl)]

theorem accumulate_noColoring_rel (p : Params) (g : Grid) (ev : LocalEvaluator)
    (eIdx pd : Nat) (x x' : AsmState)
    (hp : p.enablePartialRelinearization = false)
    (hR : x.matrix = x'.matrix ∧ x.residual = x'.residual
      ∧ x.storageTerm = x'.storageTerm ∧ x.storageJacobian = x'.storageJacobian) :
    (accumulatePrimaryDof p g ev eIdx x pd).matrix
        = (accumulatePrimaryDofNoColoring p g ev eIdx x' pd).matrix
    ∧ (accumulatePrimaryDof p g ev eIdx x pd).residual
        = (accumulatePrimaryDofNoColoring p g ev eIdx x' pd).residual
    ∧ (accumulatePrimaryDof p g ev eIdx x pd).storageTerm
        = (accumulatePrimaryDofNoColoring p g ev eIdx x' pd).storageTerm
    ∧ (accumulatePrimaryDof p g ev eIdx x pd).storageJacobian
        = (accumulatePrimaryDofNoColoring p g ev eIdx x' pd).storageJacobian := by
  unfold accumulatePrimaryDof accumulatePrimaryDofNoColoring
  simp only [dofColorQ, hp, Bool.not_false, reduceIte, ne_eq]
  rw [if_pos (show ¬EntityColor.Red = EntityColor.Green by decide)]
  cases hrecb : p.enableLinearizationRecycling with
  | false =>
      simp only [hrecb, Bool.false_eq_true, ite_false]
      rw [hR.1, hR.2.1, hR.2.2.1, hR.2.2.2]
      exact ⟨rfl, rfl, rfl, rfl⟩
  | true =>
      simp only [hrecb, reduceIte]
      rw [hR.1, hR.2.1, hR.2.2.1, hR.2.2.2]
      exact ⟨rfl, rfl, rfl, rfl⟩

theorem traverseElem_noColoring_rel (p : Params) (g : Grid) (ev : LocalEvaluator)
    (eIdx : Nat) (x x' : AsmState)
    (hp : p.enablePartialRelinearization = false)
    (hR : x.matrix = x'.matrix ∧ x.residual = x'.residual
      ∧ x.storageTerm = x'.storageTerm ∧ x.storageJacobian = x'.storageJacobian) :
    (traverseElem p g ev x eIdx).matrix
        = (traverseElemNoColoring p g ev x' eIdx).matrix
    ∧ (traverseElem p g ev x eIdx).residual
        = (traverseElemNoColoring p g ev x' eIdx).residual
    ∧ (traverseElem p g ev x eIdx).storageTerm
        = (traverseElemNoColoring p g ev x' eIdx).storageTerm
    ∧ (traverseElem p g ev x eIdx).storageJacobian
        = (traverseElemNoColoring p g ev x' eIdx).storageJacobian := by
  unfold traverseElem traverseElemNoColoring
  split
  · unfold assembleElement_
    rw [if_neg (show ¬((p.enablePartialRelinearization
        && (x.elementColor.getD eIdx .Green == .Green)) = true) by
      rw [hp]; simp)]
    exact foldl_rel
      (fun (a b : AsmState) => a.matrix = b.matrix ∧ a.residual = b.residual
        ∧ a.storageTerm = b.storageTerm ∧ a.storageJacobian = b.storageJacobian)
      (accumulatePrimaryDof p g ev eIdx) (accumulatePrimaryDofNoColoring p g ev eIdx)
      _ x x' hR
      (fun y y' b _ hy => accumulate_noColoring_rel p g ev eIdx b y y' hp hy)
  · exact hR

/-- C8 as stated is false at the recycled path: with partial relinearization
disabled but the reuse flag set, `assemble()` does not traverse the elements
at all — it succeeds even though evaluating any element would throw, while
the same call with the reuse flag clear (which does traverse) fails. -/
theorem claim_C8_counterexample :
    pLR.enablePartialRelinearization = false
    ∧ stC8.reuseLinearization = true
    ∧ (assemble pLR gC8 evFail 2 stC8).isSome = true
    ∧ (assemble pLR gC8 evFail 2
        { stC8 with reuseLinearization := false }).isSome = false := by
  exact ⟨rfl, rfl, by decide, by decide⟩

/-- C8 amended: with partial relinearization disabled, `dofColor` and
`elementColor` report red for every index, and every `assemble()` call with
the reuse flag clear performs the full element traversal, producing a
residual and matrix identical to those of the coloring-free reference
assembler; only a call with the reuse flag set skips the traversal (it takes
the recycling path in both implementations). -/
theorem assemble_noColoring_main (p : Params) (g : Grid) (ev : LocalEvaluator)
    (curDt : ℚ) (st : AsmState)
    (hp : p.enablePartialRelinearization = false)
    (hreuse : st.reuseLinearization = false) :
    (assemble p g ev curDt st).map (fun s => s.residual)
        = (assembleNoColoring p g ev curDt st).map (fun s => s.residual)
    ∧ (assemble p g ev curDt st).map (fun s => s.matrix)
        = (assembleNoColoring p g ev curDt st).map (fun s => s.matrix) := by
  by_cases hsucc : assembleSucceeds g ev st = true
  · have hR := foldl_rel
      (fun (a b : AsmState) => a.matrix = b.matrix ∧ a.residual = b.residual
        ∧ a.storageTerm = b.storageTerm ∧ a.storageJacobian = b.storageJacobian)
      (traverseElem p g ev) (traverseElemNoColoring p g ev)
      (List.range g.elems.length)
      { resetSystemNoColoring p st with oldDt := curDt, greenElems := 0 }
      { resetSystemNoColoring p st with oldDt := curDt }
      ⟨rfl, rfl, rfl, rfl⟩
      (fun y y' b _ hy => traverseElem_noColoring_rel p g ev b y y' hp hy)
    have hrs : resetSystem_ p g st = resetSystemNoColoring p st :=
      resetSystem_noColoring_eq p g st hp
    have hr1 : (resetSystemNoColoring p st).reuseLinearization = false := by
      rw [resetSystemNoColoring_reuse]
      exact hreuse
    simp only [assemble, assembleNoColoring, assemble_, hsucc, Bool.not_true,
      Bool.false_eq_true, ite_false, hp, Bool.and_false, hrs, hr1,
      Option.map_some']
    simp only [hr1] at hR
    exact ⟨congrArg some hR.2.1, congrArg some hR.1⟩
  · have hsucc' : assembleSucceeds g ev st = false :=
      Bool.eq_false_iff.mpr hsucc
    constructor <;> simp [assemble, assembleNoColoring, hsucc']

/-- C8 amended: with partial relinearization disabled, `dofColor` and
`elementColor` report red for every index, and every `assemble()` call with
the reuse flag clear performs the full element traversal, producing a
residual and matrix identical to those of the coloring-free reference
assembler; only a call with the reuse flag set skips the traversal (it takes
the recycling path in both implementations). -/
theorem claim_C8_amended (p : Params) (g : Grid) (ev : LocalEvaluator)
    (curDt : ℚ) (st : AsmState)
    (hp : p.enablePartialRelinearization = false)
    (hreuse : st.reuseLinearization = false) :
    (∀ i, dofColorQ p st i = .Red)
    ∧ (∀ e, elementColorQ p st e = .Red)
    ∧ (assemble p g ev curDt st).map (fun s => s.residual)
        = (assembleNoColoring p g ev curDt st).map (fun s => s.residual)
    ∧ (assemble p g ev curDt st).map (fun s => s.matrix)
        = (assembleNoColoring p g ev curDt st).map (fun s => s.matrix) :=
  ⟨fun i => by simp [dofColorQ, hp], fun e => by simp [elementColorQ, hp],
   (assemble_noColoring_main p g ev curDt st hp hreuse).1,
   (assemble_noColoring_main p g ev curDt st hp hreuse).2⟩

/-- Witness for the amended C8 at a one-element grid with recycling enabled
and the reuse flag clear. -/
theorem claim_C8_witness :
    dofColorQ pLR { stC8 with reuseLinearization := false } 0 = .Red
    ∧ elementColorQ pLR { stC8 with reuseLinearization := false } 0 = .Red
    ∧ (assemble pLR gC8 evC8 2 { stC8 with reuseLinearization := false }).map
        (fun s => s.residual)
      = (assembleNoColoring pLR gC8 evC8 2
          { stC8 with reuseLinearization := false }).map (fun s => s.residual)
    ∧ (assemble pLR gC8 evC8 2 { stC8 with reuseLinearization := false }).map
        (fun s => s.matrix)
      = (assembleNoColoring pLR gC8 evC8 2
          { stC8 with reuseLinearization := false }).map (fun s => s.matrix) :=
  ⟨(claim_C8_amended pLR gC8 evC8 2
      { stC8 with reuseLinearization := false } rfl rfl).1 0,
   (claim_C8_amended pLR gC8 evC8 2
      { stC8 with reuseLinearization := false } rfl rfl).2.1 0,
   (claim_C8_amended pLR gC8 evC8 2
      { stC8 with reuseLinearization := false } rfl rfl).2.2.1,
   (claim_C8_amended pLR gC8 evC8 2
      { stC8 with reuseLinearization := false } rfl rfl).2.2.2⟩

/-! ### Claim C6: markDofRed does not survive a green element color -/

/-- C6 is a code bug: dof 0 is marked red while its only element is still
green from the previous baseline; the following `assemble()` (without an
intervening `computeColors`) zeroes the Jacobian row of dof 0 in
`resetSystem_` (the dof is non-green) but then takes the green-element path
and never recomputes it, leaving the row zero — whereas the coloring-free
assembler produces the fresh local Jacobian entry 3.  `markDofRed`'s own
documentation promises the dof will be relinearized by the next
`assemble()`. -/
theorem claim_C6_code_bug :
    dofColorQ pPR (markDofRed pPR stC6 0) 0 = .Red
    ∧ elementColorQ pPR (markDofRed pPR stC6 0) 0 = .Green
    ∧ (assemble pPR gC6 evC6 1 (markDofRed pPR stC6 0)).map
        (fun s => s.matrix 0 0) = some 0
    ∧ (assembleNoColoring pPR gC6 evC6 1 (markDofRed pPR stC6 0)).map
        (fun s => s.matrix 0 0) = some 3
    ∧ evC6.jacobian 0 0 0 = 3 := by
  refine ⟨by decide, by decide, ?_, ?_, rfl⟩
  · with_unfolding_all rfl
  · with_unfolding_all rfl

/-! ### Claim C7: the Newton solution update -/

/-- C7: `update_` rejects exactly when the update direction contains a
non-finite entry (the rejection happens before any assignment, so the
solution vectors are untouched), and otherwise produces the plain
subtraction `uCurrentIter[i] = uLastIter[i] - deltaU[i]` for every index. -/
theorem claim_C7_newton_update (uLastIter : List ℚ) (deltaU : List FScalar) :
    (update_ uLastIter deltaU = none ↔ twoNorm2IsFinite deltaU = false)
    ∧ (twoNorm2IsFinite deltaU = true →
        update_ uLastIter deltaU
          = some (List.zipWith (fun u d => u - d.val) uLastIter deltaU))
    ∧ (twoNorm2IsFinite deltaU = false ↔ ∃ d ∈ deltaU, d.isFinite = false) := by
  refine ⟨?_, ?_, ?_⟩
  · cases hfin : twoNorm2IsFinite deltaU <;> simp [update_, hfin]
  · intro hfin
    simp [update_, hfin]
  · simp [twoNorm2IsFinite, List.all_eq_false]

/-- Witness for C7: a finite update is applied by subtraction, a non-finite
one is rejected. -/
theorem claim_C7_witness :
    update_ [(5 : ℚ)] ([⟨2, true⟩] : List FScalar)
        = some (List.zipWith (fun (u : ℚ) (d : FScalar) => u - d.val)
            [(5 : ℚ)] ([⟨2, true⟩] : List FScalar))
    ∧ update_ [(5 : ℚ)] ([⟨2, false⟩] : List FScalar) = none :=
  ⟨(claim_C7_newton_update [(5 : ℚ)] ([⟨2, true⟩] : List FScalar)).2.1 (by decide),
   (claim_C7_newton_update [(5 : ℚ)] ([⟨2, false⟩] : List FScalar)).1.mpr (by decide)⟩
